import Mathlib

/-!
Shallow embedding of the record-join / field-update core of the `dm` toolkit
(`src/dm/utils/json_util.py` and `src/dm/update.py`).

Records are JSON objects, i.e. Python dicts: insertion-ordered mappings from
field names to JSON values.  We model a record as an association list
`List (String × Val)`; Python-dict reads, writes and deletes are `alGet`,
`alSet` and `alDel` below.  Fallible Python operations (subscripting a dict
or list, `del`) are modelled with `Except Err`.
-/

/-- A JSON value as far as the claims need it (flat records of scalars). -/
inductive Val : Type
  | vNull : Val
  | vBool : Bool → Val
  | vInt : Int → Val
  | vStr : String → Val
deriving DecidableEq

/-- The Python exceptions the modelled code can raise: `KeyError(key)`,
`ValueError(message)` and `IndexError`. -/
inductive Err : Type
  | keyError : String → Err
  | valueError : String → Err
  | indexError : Err
deriving DecidableEq

/-- Python-dict lookup `d[k]` as an `Option` (insertion order, first match;
keys of a Python dict are unique, so first match is the match). -/
def alGet {κ α : Type} [DecidableEq κ] : List (κ × α) → κ → Option α
  | [], _ => none
  | (k', v) :: rest, k => if k' = k then some v else alGet rest k

/-- Python-dict write `d[k] = v`: replace in place if the key is present,
append otherwise (insertion-order semantics of Python dicts). -/
def alSet {κ α : Type} [DecidableEq κ] : List (κ × α) → κ → α → List (κ × α)
  | [], k, v => [(k, v)]
  | (k', v') :: rest, k, v =>
    if k' = k then (k, v) :: rest else (k', v') :: alSet rest k v

/-- Python-dict delete `del d[k]` (the key side; Python dict keys are unique,
so removing every pair with key `k` agrees with Python on every real dict). -/
def alDel {κ α : Type} [DecidableEq κ] (d : List (κ × α)) (k : κ) : List (κ × α) :=
  d.filter (fun p => p.1 ≠ k)

/-- A record, i.e. one parsed JSONL line: a Python dict from field name to value. -/
abbrev Dict : Type := List (String × Val)

/-- Fallible Python-dict read `d[k]`: raises `KeyError(k)` when absent. -/
def dictGetE (d : Dict) (k : String) : Except Err Val :=
  match alGet d k with
  | some v => Except.ok v
  | none => Except.error (Err.keyError k)

/-- Fallible Python `del d[k]`: raises `KeyError(k)` when absent. -/
def pyDel (d : Dict) (k : String) : Except Err Dict :=
  if (alGet d k).isSome then Except.ok (alDel d k) else Except.error (Err.keyError k)

/-- Fallible Python list subscript `l[i]` (raises `IndexError` out of range). -/
def listGetE {α : Type} (l : List α) (i : Nat) : Except Err α :=
  match l[i]? with
  | some x => Except.ok x
  | none => Except.error Err.indexError

/-- Python `f"{b}"` on a boolean. -/
def pyBool (b : Bool) : String := if b then "True" else "False"

/-! ## Ordered field-update engine (`update_fields`, json_util.py lines 115-137)

The Python function reads both files, raises `ValueError` when the lengths
differ (the message interpolates the *comparison* `len(a) != len(b)`, not the
two lengths), and otherwise copies each key of `keys_to_update` from the
positionally aligned other record into the base record. -/

/-- The inner loop of both update engines:
`for key in keys_to_update: base[key] = update[key]` applied to one record. -/
def updateOne (u : Dict) (keys : List String) (b : Dict) : Except Err Dict :=
  match keys with
  | [] => Except.ok b
  | k :: ks =>
    match dictGetE u k with
    | Except.error e => Except.error e
    | Except.ok v => updateOne u ks (alSet b k v)

/-- The `for base, update in zip(base_jsonls, update_jsonls)` loop of
`update_fields`, collecting the updated base records in order. -/
def zipLoop (keys : List String) : List (Dict × Dict) → Except Err (List Dict)
  | [] => Except.ok []
  | (b, u) :: rest =>
    match updateOne u keys b with
    | Except.error e => Except.error e
    | Except.ok b' =>
      match zipLoop keys rest with
      | Except.error e => Except.error e
      | Except.ok rs => Except.ok (b' :: rs)

/-- `update_fields` (json_util.py lines 115-137) on the already-loaded record
sequences.  Note the source's f-string slip: the message interpolates
`{len(base_jsonls) != len(update_jsonls)}`, a boolean, so the raised message
is literally `Lengths of jsonl files are not the same (True)`. -/
def update_fields (base other : List Dict) (keysToUpdate : List String) :
    Except Err (List Dict) :=
  if base.length ≠ other.length then
    Except.error (Err.valueError
      ("Lengths of jsonl files are not the same (" ++
        pyBool (decide (base.length ≠ other.length)) ++ ")"))
  else zipLoop keysToUpdate (base.zip other)

/-! ## Join-key index and unordered field-update engine
(`_update_fields_unordered`, json_util.py lines 140-161) -/

/-- The dict comprehension `{jsonl[primary_key]: jsonl for jsonl in other_jsonl}`
(json_util.py line 152): insert in sequence order, later records overwriting
earlier ones holding the same key value; `jsonl[primary_key]` raises
`KeyError(primary_key)` when a record lacks the field. -/
def buildLoop (pk : String) : List Dict → List (Val × Dict) → Except Err (List (Val × Dict))
  | [], acc => Except.ok acc
  | j :: rest, acc =>
    match dictGetE j pk with
    | Except.error e => Except.error e
    | Except.ok v => buildLoop pk rest (alSet acc v j)

/-- The join-key index of `_update_fields_unordered`, built from the whole
`other` sequence starting from the empty dict. -/
def buildUpdateDict (other : List Dict) (pk : String) : Except Err (List (Val × Dict)) :=
  buildLoop pk other []

/-- One iteration of the base loop of `_update_fields_unordered`: read the
base record's primary-key value (`KeyError` if absent), skip with a warning
when it is not in the index, otherwise overlay the keys to update. -/
def updOne (ud : List (Val × Dict)) (pk : String) (keys : List String) (b : Dict) :
    Except Err Dict :=
  match dictGetE b pk with
  | Except.error e => Except.error e
  | Except.ok v =>
    match alGet ud v with
    | none => Except.ok b
    | some u => updateOne u keys b

/-- The `for base in base_jsonl` loop of `_update_fields_unordered`,
collecting the (possibly updated) base records in their original order. -/
def updLoop (ud : List (Val × Dict)) (pk : String) (keys : List String) :
    List Dict → Except Err (List Dict)
  | [] => Except.ok []
  | b :: rest =>
    match updOne ud pk keys b with
    | Except.error e => Except.error e
    | Except.ok b' =>
      match updLoop ud pk keys rest with
      | Except.error e => Except.error e
      | Except.ok rs => Except.ok (b' :: rs)

/-- `_update_fields_unordered` (json_util.py lines 140-161) on the
already-loaded sequences; the public `update_fields_unordered` only adds the
file reads around this core. -/
def update_fields_unordered (base other : List Dict) (pk : String)
    (keysToUpdate : List String) : Except Err (List Dict) :=
  match buildUpdateDict other pk with
  | Except.error e => Except.error e
  | Except.ok ud => updLoop ud pk keysToUpdate base

/-! ## The `update` subcommand driver (`update_with_args`, update.py lines 12-50) -/

/-- Observable outcome of `update_with_args`: either the updated lines are
written to the output file, or the function stops early (logging
`The other file is empty` at error level, resp. `The input file is empty` at
warning level, and writing nothing), or an exception from the engine
propagates (again writing nothing). -/
inductive UpdateOutcome : Type
  | wrote : List Dict → UpdateOutcome
  | emptyOtherError : UpdateOutcome
  | emptyInputWarning : UpdateOutcome
  | raised : Err → UpdateOutcome
deriving DecidableEq

/-- `d.keys()` of a Python dict, in insertion order. -/
def keysOf (d : Dict) : List String := d.map Prod.fst

/-- `update_with_args` (update.py lines 12-50) on the already-loaded input and
other sequences.  `columns = none` models `args.columns = None`; a present but
empty list is falsy in Python, hence also takes the fallback branch.  The
fallback `set(other_lines[0].keys()) - set(lines[0].keys())` iterates a Python
set; it is modelled as the order-preserving filter of the first other record's
keys (the engine's behaviour depends only on the set of keys). -/
def update_with_args (inputLines otherLines : List Dict) (key : String)
    (columns : Option (List String)) (overwrite : Bool) : UpdateOutcome :=
  match otherLines with
  | [] => UpdateOutcome.emptyOtherError
  | o0 :: _ =>
    match inputLines with
    | [] => UpdateOutcome.emptyInputWarning
    | i0 :: _ =>
      let keysToUpdate :=
        match columns with
        | some (c :: cs) => c :: cs
        | _ =>
          if overwrite then keysOf o0
          else (keysOf o0).filter (fun k => ¬ (keysOf i0).contains k)
      match update_fields_unordered inputLines otherLines key keysToUpdate with
      | Except.ok r => UpdateOutcome.wrote r
      | Except.error e => UpdateOutcome.raised e

/-! ## Field-merge engine (`merge_fields`, json_util.py lines 76-112) -/

/-- The adjacent length check `for a, b in pairwise(sources)` of
`merge_fields`, raising at the first differing pair with a message naming
both lengths (here, unlike `update_fields`, the braces are placed correctly). -/
def pairwiseCheck : List (List Dict) → Except Err Unit
  | [] => Except.ok ()
  | [_] => Except.ok ()
  | a :: b :: rest =>
    if a.length ≠ b.length then
      Except.error (Err.valueError
        ("Lengths of jsonl files are not the same (" ++ toString a.length ++
          " != " ++ toString b.length ++ ")"))
    else pairwiseCheck (b :: rest)

/-- `[src[i][src_key] for src, src_key in zip(sources, src_keys)]`
(json_util.py line 99): gather the source fields at row `i`; `zip` truncates
to the shorter list, subscripting may raise. -/
def gatherFields (i : Nat) : List (List Dict × String) → Except Err (List Val)
  | [] => Except.ok []
  | (src, key) :: rest =>
    match listGetE src i with
    | Except.error e => Except.error e
    | Except.ok row =>
      match dictGetE row key with
      | Except.error e => Except.error e
      | Except.ok v =>
        match gatherFields i rest with
        | Except.error e => Except.error e
        | Except.ok vs => Except.ok (v :: vs)

/-- One iteration of the `for i in range(length)` loop of `merge_fields`
(json_util.py lines 98-111).  The Python code re-binds the local
`result_key` to `src_keys[0]` when it is falsy (`None` or `""`), once, inside
the loop; since `src_keys[0]` never changes, resolving it per iteration is
equivalent. -/
def mergeBody (sources : List (List Dict)) (srcKeys : List String)
    (mergeFn : List Val → Val) (resultKey : Option String) (i : Nat) :
    Except Err Dict :=
  match gatherFields i (sources.zip srcKeys) with
  | Except.error e => Except.error e
  | Except.ok sourceFields =>
    match listGetE sources 0 with
    | Except.error e => Except.error e
    | Except.ok s0 =>
      match listGetE s0 i with
      | Except.error e => Except.error e
      | Except.ok merged =>
        match listGetE srcKeys 0 with
        | Except.error e => Except.error e
        | Except.ok sk0 =>
          let rk :=
            match resultKey with
            | none => sk0
            | some s => if s = "" then sk0 else s
          let merged' := alSet merged rk (mergeFn sourceFields)
          if sk0 ≠ rk then pyDel merged' sk0 else Except.ok merged'

/-- The `for i in range(length)` loop collecting the merged records. -/
def mergeLoop (sources : List (List Dict)) (srcKeys : List String)
    (mergeFn : List Val → Val) (resultKey : Option String) :
    List Nat → Except Err (List Dict)
  | [] => Except.ok []
  | i :: is =>
    match mergeBody sources srcKeys mergeFn resultKey i with
    | Except.error e => Except.error e
    | Except.ok d =>
      match mergeLoop sources srcKeys mergeFn resultKey is with
      | Except.error e => Except.error e
      | Except.ok ds => Except.ok (d :: ds)

/-- `merge_fields` (json_util.py lines 76-112) on the already-loaded
sequences, with `src_keys` already in list form (the source broadcasts a
single string to `[src_keys] * len(paths)` first).  `result_key = none`
models the omitted / `None` argument. -/
def merge_fields (sources : List (List Dict)) (srcKeys : List String)
    (mergeFn : List Val → Val) (resultKey : Option String) :
    Except Err (List Dict) :=
  match pairwiseCheck sources with
  | Except.error e => Except.error e
  | Except.ok _ =>
    match listGetE sources 0 with
    | Except.error e => Except.error e
    | Except.ok s0 =>
      mergeLoop sources srcKeys mergeFn resultKey (List.range s0.length)

/-- The integer carried by a numeric JSON value (the claims only apply
Python's `sum` to records whose source fields are numeric). -/
def asInt : Val → Int
  | Val.vInt n => n
  | _ => 0

/-- Python's builtin `sum` over a gathered list of numeric fields, used as
the caller-supplied `merge_fn` in the C8 scenario. -/
def sumVals (vs : List Val) : Val :=
  Val.vInt (vs.foldl (fun acc v => acc + asInt v) 0)

/-- Decidable test that an optional value is a present integer (used to
state "the source field is numeric and present" decidably). -/
def isIntVal : Option Val → Bool
  | some (Val.vInt _) => true
  | _ => false

/-! ## Multi-field transform engine (`multi_field_transform`,
json_util.py lines 200-224) -/

/-- The dict comprehension
`{param_name: line[param_key_fn(name)] for param_name, param_key_fn in param_key_fn_map.items()}`
(json_util.py lines 221-222), raising `KeyError` on a missing source field. -/
def readParamsLoop (line : Dict) (name : String) :
    List (String × (String → String)) → Except Err (List (String × Val))
  | [] => Except.ok []
  | (pname, pkfn) :: rest =>
    match dictGetE line (pkfn name) with
    | Except.error e => Except.error e
    | Except.ok v =>
      match readParamsLoop line name rest with
      | Except.error e => Except.error e
      | Except.ok ps => Except.ok ((pname, v) :: ps)

/-- The same parameter gathering as a pure partial function, used to state
what the engine computes. -/
def readParams (line : Dict) (name : String) :
    List (String × (String → String)) → Option (List (String × Val))
  | [] => some []
  | (pname, pkfn) :: rest =>
    match alGet line (pkfn name) with
    | none => none
    | some v =>
      match readParams line name rest with
      | none => none
      | some ps => some ((pname, v) :: ps)

/-- The `for name in model_names` loop of `multi_field_transform`
(json_util.py lines 220-223): gather the parameters from the *current* state
of the record, call the transform, and write the result under
`dst_key_fn(name)`, mutating the record in place. -/
def transformNames (tf : List (String × Val) → Val)
    (pkfm : List (String × (String → String))) (dstKeyFn : String → String) :
    List String → Dict → Except Err Dict
  | [], line => Except.ok line
  | name :: rest, line =>
    match readParamsLoop line name pkfm with
    | Except.error e => Except.error e
    | Except.ok params =>
      transformNames tf pkfm dstKeyFn rest (alSet line (dstKeyFn name) (tf params))

/-- The `for line in lines` loop of `multi_field_transform`. -/
def linesLoop (modelNames : List String) (tf : List (String × Val) → Val)
    (pkfm : List (String × (String → String))) (dstKeyFn : String → String) :
    List Dict → Except Err (List Dict)
  | [] => Except.ok []
  | line :: rest =>
    match transformNames tf pkfm dstKeyFn modelNames line with
    | Except.error e => Except.error e
    | Except.ok l' =>
      match linesLoop modelNames tf pkfm dstKeyFn rest with
      | Except.error e => Except.error e
      | Except.ok ls => Except.ok (l' :: ls)

/-- `multi_field_transform` (json_util.py lines 200-224) on the
already-loaded lines.  A transform function taking named parameters is
modelled as a function on the gathered association list of
(parameter name, value) pairs. -/
def multi_field_transform (lines : List Dict) (modelNames : List String)
    (tf : List (String × Val) → Val)
    (pkfm : List (String × (String → String))) (dstKeyFn : String → String) :
    Except Err (List Dict) :=
  linesLoop modelNames tf pkfm dstKeyFn lines

/-- A concrete caller-supplied transform for exercising
`multi_field_transform`: adds one to the named parameter `p`. -/
def tfInc (ps : List (String × Val)) : Val :=
  match alGet ps "p" with
  | some (Val.vInt n) => Val.vInt (n + 1)
  | _ => Val.vNull

/-- A concrete parameter-key mapping sending parameter `p` of every model
name to the source field `x`. -/
def pkfmX : List (String × (String → String)) := [("p", fun _ => "x")]

/-- A concrete destination-key function that collides with the source field
`x` on model `m1` and is fresh (`y`) otherwise. -/
def dstXY (n : String) : String := if n = "m1" then "x" else "y"

/-- A concrete parameter-key mapping sending parameter `p` of every model
name to the source field `u`. -/
def pkfmU : List (String × (String → String)) := [("p", fun _ => "u")]

/-- A concrete destination-key function producing a fresh field name from
the model name. -/
def dstOut (n : String) : String := n ++ "_out"

/-! ## Association-list (Python dict) lemmas -/

theorem alGet_alSet_self {κ α : Type} [DecidableEq κ] (d : List (κ × α)) (k : κ) (v : α) :
    alGet (alSet d k v) k = some v := by
  induction d with
  | nil => simp [alGet, alSet]
  | cons p rest ih =>
    obtain ⟨pk, pv⟩ := p
    by_cases h : pk = k
    · simp [alSet, alGet, h]
    · simp [alSet, alGet, h, ih]

theorem alGet_alSet_ne {κ α : Type} [DecidableEq κ] (d : List (κ × α)) (k k' : κ) (v : α)
    (h : k' ≠ k) : alGet (alSet d k v) k' = alGet d k' := by
  have hkk : ¬ k = k' := fun he => h he.symm
  induction d with
  | nil => simp [alGet, alSet, hkk]
  | cons p rest ih =>
    obtain ⟨pk, pv⟩ := p
    by_cases hp : pk = k
    · subst hp
      simp [alSet, alGet, hkk]
    · simp [alSet, alGet, hp, ih]

theorem alSet_eq_of_alGet {κ α : Type} [DecidableEq κ] (d : List (κ × α)) (k : κ) (v : α)
    (h : alGet d k = some v) : alSet d k v = d := by
  induction d with
  | nil => simp [alGet] at h
  | cons p rest ih =>
    obtain ⟨pk, pv⟩ := p
    by_cases hp : pk = k
    · subst hp
      simp [alGet] at h
      simp [alSet, ← h]
    · simp [alGet, hp] at h
      simp [alSet, hp, ih h]

theorem alGet_alDel_self {κ α : Type} [DecidableEq κ] (d : List (κ × α)) (k : κ) :
    alGet (alDel d k) k = none := by
  induction d with
  | nil => simp [alDel, alGet]
  | cons p rest ih =>
    obtain ⟨pk, pv⟩ := p
    by_cases hp : pk = k
    · simpa [alDel, List.filter, hp] using ih
    · simpa [alDel, List.filter, alGet, hp] using ih

theorem alGet_alDel_ne {κ α : Type} [DecidableEq κ] (d : List (κ × α)) (k k' : κ)
    (h : k' ≠ k) : alGet (alDel d k) k' = alGet d k' := by
  induction d with
  | nil => rfl
  | cons p rest ih =>
    obtain ⟨pk, pv⟩ := p
    by_cases hp : pk = k
    · have hdel : alDel ((pk, pv) :: rest) k = alDel rest k := by
        simp [alDel, List.filter, hp]
      have hp' : ¬ pk = k' := by rw [hp]; exact fun he => h he.symm
      rw [hdel, ih]
      simp [alGet, hp']
    · have hdel : alDel ((pk, pv) :: rest) k = (pk, pv) :: alDel rest k := by
        simp [alDel, List.filter, hp]
      rw [hdel]
      by_cases hp' : pk = k'
      · simp [alGet, hp']
      · simp [alGet, hp', ih]

/-! ## `updateOne` lemmas (the shared per-record overlay loop) -/

/-- If every key to update is present in the update record, the overlay
succeeds and the result holds the update record's values at the updated keys
and the base record's values elsewhere. -/
theorem updateOne_ok (u : Dict) (keys : List String)
    (hu : ∀ k ∈ keys, (alGet u k).isSome) (b : Dict) :
    ∃ b', updateOne u keys b = Except.ok b' ∧
      (∀ k ∈ keys, alGet b' k = alGet u k) ∧
      (∀ k, k ∉ keys → alGet b' k = alGet b k) := by
  induction keys generalizing b with
  | nil => exact ⟨b, rfl, by simp, fun k _ => rfl⟩
  | cons k ks ih =>
    obtain ⟨v, hv⟩ := Option.isSome_iff_exists.mp (hu k (by simp))
    obtain ⟨b', hb', h1, h2⟩ := ih (fun k' hk' => hu k' (by simp [hk'])) (alSet b k v)
    refine ⟨b', ?_, ?_, ?_⟩
    · simp [updateOne, dictGetE, hv, hb']
    · intro k' hk'
      rcases List.mem_cons.mp hk' with h | h
      · subst h
        by_cases hks : k' ∈ ks
        · exact h1 k' hks
        · rw [h2 k' hks, alGet_alSet_self, hv]
      · exact h1 k' h
    · intro k' hk'
      have hne : k' ≠ k := fun he => hk' (by simp [he])
      rw [h2 k' (fun hc => hk' (by simp [hc])), alGet_alSet_ne _ _ _ _ hne]

/-- If the base record already carries the update record's value at every key
to update, the overlay succeeds and leaves the base record unchanged. -/
theorem updateOne_fixed (u : Dict) (keys : List String) (b : Dict)
    (h : ∀ k ∈ keys, ∃ v, alGet u k = some v ∧ alGet b k = some v) :
    updateOne u keys b = Except.ok b := by
  induction keys generalizing b with
  | nil => rfl
  | cons k ks ih =>
    obtain ⟨v, hv, hb⟩ := h k (by simp)
    have : alSet b k v = b := alSet_eq_of_alGet b k v hb
    simp [updateOne, dictGetE, hv, this, ih b (fun k' hk' => h k' (by simp [hk']))]

/-- A successful overlay records the update record's value at every updated
key (and those values exist), and leaves every other key untouched. -/
theorem updateOne_ok_inv (u : Dict) (keys : List String) (b b' : Dict)
    (h : updateOne u keys b = Except.ok b') :
    (∀ k ∈ keys, ∃ v, alGet u k = some v ∧ alGet b' k = some v) ∧
    (∀ k, k ∉ keys → alGet b' k = alGet b k) := by
  induction keys generalizing b with
  | nil =>
    simp only [updateOne, Except.ok.injEq] at h
    subst h
    exact ⟨by simp, fun _ _ => rfl⟩
  | cons k ks ih =>
    match hv : alGet u k with
    | none => simp [updateOne, dictGetE, hv] at h
    | some v =>
      simp only [updateOne, dictGetE, hv] at h
      obtain ⟨h1, h2⟩ := ih (alSet b k v) h
      refine ⟨?_, ?_⟩
      · intro k' hk'
        rcases List.mem_cons.mp hk' with he | he
        · subst he
          by_cases hks : k' ∈ ks
          · exact h1 k' hks
          · exact ⟨v, hv, by rw [h2 k' hks, alGet_alSet_self]⟩
        · exact h1 k' he
      · intro k' hk'
        have hne : k' ≠ k := fun he => hk' (by simp [he])
        rw [h2 k' (fun hc => hk' (by simp [hc])), alGet_alSet_ne _ _ _ _ hne]

/-! ## Join-key index lemmas -/

/-- Splitting the index-building loop over an appended sequence. -/
theorem buildLoop_append (pk : String) (l₁ l₂ : List Dict) (acc : List (Val × Dict)) :
    buildLoop pk (l₁ ++ l₂) acc =
      match buildLoop pk l₁ acc with
      | Except.error e => Except.error e
      | Except.ok d₁ => buildLoop pk l₂ d₁ := by
  induction l₁ generalizing acc with
  | nil => simp [buildLoop]
  | cons j rest ih =>
    match hv : dictGetE j pk with
    | Except.error e => simp [buildLoop, hv]
    | Except.ok v => simp [buildLoop, hv, ih]

/-- Records whose key value is not `v` do not disturb the index at `v`. -/
theorem buildLoop_skip (pk : String) (v : Val) (l : List Dict) (acc : List (Val × Dict))
    (hl : ∀ j ∈ l, alGet j pk ≠ some v) (d : List (Val × Dict))
    (hd : buildLoop pk l acc = Except.ok d) : alGet d v = alGet acc v := by
  induction l generalizing acc with
  | nil =>
    simp only [buildLoop, Except.ok.injEq] at hd
    subst hd; rfl
  | cons j rest ih =>
    match hv : alGet j pk with
    | none => simp [buildLoop, dictGetE, hv] at hd
    | some w =>
      simp only [buildLoop, dictGetE, hv] at hd
      have hw : w ≠ v := fun he => hl j (by simp) (by rw [hv, he])
      rw [ih (alSet acc w j) (fun j' hj' => hl j' (by simp [hj'])) hd,
        alGet_alSet_ne _ _ _ _ (fun he => hw he.symm)]

/-- If `u` is the unique record of `l` holding key value `v`, the index maps
`v` to `u`. -/
theorem buildLoop_unique (pk : String) (v : Val) (u : Dict) (l : List Dict)
    (hm : u ∈ l) (hv : alGet u pk = some v)
    (huniq : ∀ j ∈ l, alGet j pk = some v → j = u)
    (acc d : List (Val × Dict)) (hd : buildLoop pk l acc = Except.ok d) :
    alGet d v = some u := by
  induction l generalizing acc with
  | nil => simp at hm
  | cons j rest ih =>
    match hw : alGet j pk with
    | none => simp [buildLoop, dictGetE, hw] at hd
    | some w =>
      simp only [buildLoop, dictGetE, hw] at hd
      by_cases hur : u ∈ rest
      · exact ih hur (fun j' hj' hv' => huniq j' (by simp [hj']) hv') _ hd
      · have hju : j = u := by
          rcases List.mem_cons.mp hm with he | he
          · exact he.symm
          · exact absurd he hur
        subst hju
        have hwv : w = v := by rw [hw] at hv; exact Option.some_inj.mp hv
        subst hwv
        have hrest : ∀ j' ∈ rest, alGet j' pk ≠ some w := by
          intro j' hj' hc
          exact hur ((huniq j' (by simp [hj']) hc) ▸ hj')
        rw [buildLoop_skip pk w rest _ hrest d hd, alGet_alSet_self]

/-- Every record the finished index returns carries its own key value at the
primary-key field (invariant of the dict comprehension). -/
theorem buildLoop_key_inv (pk : String) (l : List Dict) (acc d : List (Val × Dict))
    (hacc : ∀ v u, alGet acc v = some u → alGet u pk = some v)
    (hd : buildLoop pk l acc = Except.ok d) :
    ∀ v u, alGet d v = some u → alGet u pk = some v := by
  induction l generalizing acc with
  | nil =>
    simp only [buildLoop, Except.ok.injEq] at hd
    subst hd; exact hacc
  | cons j rest ih =>
    match hw : alGet j pk with
    | none => simp [buildLoop, dictGetE, hw] at hd
    | some w =>
      simp only [buildLoop, dictGetE, hw] at hd
      refine ih (alSet acc w j) ?_ hd
      intro v u hvu
      by_cases hv : v = w
      · subst hv
        rw [alGet_alSet_self] at hvu
        obtain rfl := Option.some_inj.mp hvu
        exact hw
      · exact hacc v u (by rwa [alGet_alSet_ne _ _ _ _ hv] at hvu)

/-- If some record of the sequence lacks the primary-key field, building the
index raises `KeyError(primary_key)` — the same error value whichever record
is the offending one. -/
theorem buildLoop_missing (pk : String) (l : List Dict) (acc : List (Val × Dict))
    (h : ∃ j ∈ l, alGet j pk = none) :
    buildLoop pk l acc = Except.error (Err.keyError pk) := by
  induction l generalizing acc with
  | nil => simp at h
  | cons j0 rest ih =>
    match hv : alGet j0 pk with
    | none => simp [buildLoop, dictGetE, hv]
    | some v =>
      obtain ⟨j, hj, hjn⟩ := h
      rcases List.mem_cons.mp hj with he | he
      · rw [he, hv] at hjn
        exact absurd hjn (by simp)
      · simp [buildLoop, dictGetE, hv, ih _ ⟨j, he, hjn⟩]

/-! ## First concrete checks -/

/-- C2: On base `[{"id":1,"a":10},{"id":2,"a":20}]`,
other `[{"id":2,"b":99},{"id":1,"b":77}]`, primary key `"id"`,
keys to update `{"b"}`, the unordered field-update returns exactly
`[{"id":1,"a":10,"b":77},{"id":2,"a":20,"b":99}]`: base order is preserved
and matching is by key value, not position. -/
theorem C2_unordered_scenario :
    update_fields_unordered
      [[("id", Val.vInt 1), ("a", Val.vInt 10)], [("id", Val.vInt 2), ("a", Val.vInt 20)]]
      [[("id", Val.vInt 2), ("b", Val.vInt 99)], [("id", Val.vInt 1), ("b", Val.vInt 77)]]
      "id" ["b"]
    = Except.ok
      [[("id", Val.vInt 1), ("a", Val.vInt 10), ("b", Val.vInt 77)],
       [("id", Val.vInt 2), ("a", Val.vInt 20), ("b", Val.vInt 99)]] := rfl

/-- C5 (code bug evidence): on sequences of lengths 1 and 2, `update_fields`
raises `ValueError` and returns no records, but its message is literally
`Lengths of jsonl files are not the same (True)` — the source interpolates the
boolean comparison `len(base) != len(other)` instead of the two lengths, so
the message does not report the lengths 1 and 2. -/
theorem C5_length_mismatch_message :
    update_fields [[("id", Val.vInt 1)]]
      [[("id", Val.vInt 1)], [("id", Val.vInt 2)]] ["a"]
    = Except.error (Err.valueError "Lengths of jsonl files are not the same (True)") := rfl

/-- C6: with an empty `other` sequence the `update` operation stops before
building the join-key index, reporting the empty-input error and writing no
output, for every input sequence and argument combination; in particular for
`base = [{"id":1}]`, `other = []`. -/
theorem C6_empty_other_fails_fast :
    (∀ (inputLines : List Dict) (key : String) (columns : Option (List String))
        (overwrite : Bool),
      update_with_args inputLines [] key columns overwrite =
        UpdateOutcome.emptyOtherError) ∧
    update_with_args [[("id", Val.vInt 1)]] [] "id" none false =
      UpdateOutcome.emptyOtherError := by
  constructor
  · intro inputLines key columns overwrite
    rfl
  · rfl

/-! ## Unordered-engine correctness (C1, C3, C4, C7) -/

/-- If every record carries the primary-key field, building the index succeeds. -/
theorem buildLoop_ok (pk : String) (l : List Dict)
    (h : ∀ j ∈ l, (alGet j pk).isSome) (acc : List (Val × Dict)) :
    ∃ d, buildLoop pk l acc = Except.ok d := by
  induction l generalizing acc with
  | nil => exact ⟨acc, rfl⟩
  | cons j rest ih =>
    obtain ⟨v, hv⟩ := Option.isSome_iff_exists.mp (h j (by simp))
    obtain ⟨d, hd⟩ := ih (fun j' hj' => h j' (by simp [hj'])) (alSet acc v j)
    exact ⟨d, by simp [buildLoop, dictGetE, hv, hd]⟩

/-- Pointwise success of the base loop: if every base record is processed
successfully with a per-record guarantee, the loop succeeds, preserves length
and order, and the guarantee holds at every position. -/
theorem updLoop_pointwise (ud : List (Val × Dict)) (pk : String)
    (keys : List String) (P : Dict → Dict → Prop) (l : List Dict)
    (h : ∀ b ∈ l, ∃ b', updOne ud pk keys b = Except.ok b' ∧ P b b') :
    ∃ out, updLoop ud pk keys l = Except.ok out ∧ out.length = l.length ∧
      ∀ (i : Nat) (bi oi : Dict), l[i]? = some bi → out[i]? = some oi → P bi oi := by
  induction l with
  | nil =>
    refine ⟨[], rfl, rfl, ?_⟩
    intro i bi oi h1 _
    simp at h1
  | cons b rest ih =>
    obtain ⟨b', hb', hP⟩ := h b (by simp)
    obtain ⟨out, hout, hlen, hpt⟩ := ih (fun x hx => h x (by simp [hx]))
    refine ⟨b' :: out, by simp [updLoop, hb', hout], by simp [hlen], ?_⟩
    intro i bi oi h1 h2
    match i with
    | 0 =>
      rw [List.getElem?_cons_zero] at h1 h2
      obtain rfl := Option.some_inj.mp h1
      obtain rfl := Option.some_inj.mp h2
      exact hP
    | Nat.succ n =>
      rw [List.getElem?_cons_succ] at h1 h2
      exact hpt n bi oi h1 h2

/-- C1: with a shared primary key present in every record, no duplicate key
values in `other`, and every key to update present in each *matched* `other`
record (one whose key value is shared by a base record — unmatched `other`
records are never read), the unordered field-update succeeds, preserves the
length and order of `base`, gives every updated field the value of the
`other` record matched by primary-key value, and leaves every other field of
`base` unchanged. -/
theorem C1_update_unordered_correct (base other : List Dict) (pk : String)
    (keys : List String)
    (hbpk : ∀ b ∈ base, (alGet b pk).isSome)
    (hopk : ∀ u ∈ other, (alGet u pk).isSome)
    (hnodup : ∀ u1 ∈ other, ∀ u2 ∈ other, alGet u1 pk = alGet u2 pk → u1 = u2)
    (hkeys : ∀ b ∈ base, ∀ u ∈ other, alGet u pk = alGet b pk →
      ∀ k ∈ keys, (alGet u k).isSome) :
    ∃ out, update_fields_unordered base other pk keys = Except.ok out ∧
      out.length = base.length ∧
      ∀ (i : Nat) (bi oi : Dict), base[i]? = some bi → out[i]? = some oi →
        (∀ u ∈ other, alGet u pk = alGet bi pk →
          ∀ k ∈ keys, alGet oi k = alGet u k) ∧
        (∀ k, k ∉ keys → alGet oi k = alGet bi k) := by
  obtain ⟨d, hd⟩ := buildLoop_ok pk other hopk []
  have hstep : ∀ b ∈ base, ∃ b', updOne d pk keys b = Except.ok b' ∧
      ((∀ u ∈ other, alGet u pk = alGet b pk → ∀ k ∈ keys, alGet b' k = alGet u k) ∧
       (∀ k, k ∉ keys → alGet b' k = alGet b k)) := by
    intro b hb
    obtain ⟨v, hv⟩ := Option.isSome_iff_exists.mp (hbpk b hb)
    by_cases hex : ∃ u ∈ other, alGet u pk = some v
    · obtain ⟨u0, hu0m, hu0v⟩ := hex
      have huniq : ∀ j ∈ other, alGet j pk = some v → j = u0 := by
        intro j hj hjv
        exact hnodup j hj u0 hu0m (by rw [hjv, hu0v])
      have hidx : alGet d v = some u0 :=
        buildLoop_unique pk v u0 other hu0m hu0v huniq [] d hd
      obtain ⟨b', hb', h1, h2⟩ :=
        updateOne_ok u0 keys (hkeys b hb u0 hu0m (by rw [hu0v, hv])) b
      refine ⟨b', by simp [updOne, dictGetE, hv, hidx, hb'], ?_, h2⟩
      intro u hu hupk k hk
      have : u = u0 := hnodup u hu u0 hu0m (by rw [hupk, hv, hu0v])
      rw [this, h1 k hk]
    · have hnone : alGet d v = none := by
        have hl : ∀ j ∈ other, alGet j pk ≠ some v := by
          intro j hj hc
          exact hex ⟨j, hj, hc⟩
        rw [buildLoop_skip pk v other [] hl d hd]
        rfl
      refine ⟨b, by simp [updOne, dictGetE, hv, hnone], ?_, fun k _ => rfl⟩
      intro u hu hupk k hk
      exact absurd ⟨u, hu, by rw [hupk, hv]⟩ hex
  obtain ⟨out, hout, hlen, hpt⟩ := updLoop_pointwise d pk keys _ base hstep
  exact ⟨out, by simp [update_fields_unordered, buildUpdateDict, hd, hout], hlen, hpt⟩

/-- C1 witness: the hypotheses are satisfiable, e.g. one base record with an
extra field `c`, one matching other record carrying the updated field `b`. -/
theorem C1_witness :
    ∃ out, update_fields_unordered
        [[("id", Val.vInt 1), ("c", Val.vInt 5)]]
        [[("id", Val.vInt 1), ("b", Val.vInt 2)]] "id" ["b"] = Except.ok out ∧
      out.length = [[("id", Val.vInt 1), ("c", Val.vInt 5)]].length ∧
      ∀ (i : Nat) (bi oi : Dict), [[("id", Val.vInt 1), ("c", Val.vInt 5)]][i]? = some bi →
        out[i]? = some oi →
        (∀ u ∈ [[("id", Val.vInt 1), ("b", Val.vInt 2)]],
          alGet u "id" = alGet bi "id" →
          ∀ k ∈ ["b"], alGet oi k = alGet u k) ∧
        (∀ k, k ∉ ["b"] → alGet oi k = alGet bi k) :=
  C1_update_unordered_correct
    [[("id", Val.vInt 1), ("c", Val.vInt 5)]]
    [[("id", Val.vInt 1), ("b", Val.vInt 2)]] "id" ["b"]
    (by decide) (by decide) (by decide) (by decide)

/-- Processing a record a second time against the same index changes nothing:
the primary-key value is preserved (the index only holds records carrying
their own key value), so the same update record is found, and re-writing the
already-copied values is the identity. -/
theorem updOne_idem (d : List (Val × Dict)) (pk : String) (keys : List String)
    (hinv : ∀ v u, alGet d v = some u → alGet u pk = some v) (b b' : Dict)
    (h : updOne d pk keys b = Except.ok b') :
    updOne d pk keys b' = Except.ok b' := by
  match hbv : alGet b pk with
  | none => simp [updOne, dictGetE, hbv] at h
  | some v =>
    simp only [updOne, dictGetE, hbv] at h
    match hdv : alGet d v with
    | none =>
      simp only [hdv, Except.ok.injEq] at h
      subst h
      simp [updOne, dictGetE, hbv, hdv]
    | some u =>
      simp only [hdv] at h
      obtain ⟨h1, h2⟩ := updateOne_ok_inv u keys b b' h
      have hupk : alGet u pk = some v := hinv v u hdv
      have hb'pk : alGet b' pk = some v := by
        by_cases hpk : pk ∈ keys
        · obtain ⟨w, hw, hb'w⟩ := h1 pk hpk
          rw [hupk] at hw
          rw [hb'w, ← Option.some_inj.mp hw]
        · rw [h2 pk hpk, hbv]
      simp only [updOne, dictGetE, hb'pk, hdv]
      exact updateOne_fixed u keys b' h1

/-- Re-running the base loop on its own output returns the output unchanged,
given that re-processing any processed record is the identity. -/
theorem updLoop_idem (ud : List (Val × Dict)) (pk : String) (keys : List String)
    (hstep : ∀ b b', updOne ud pk keys b = Except.ok b' →
      updOne ud pk keys b' = Except.ok b')
    (l out : List Dict) (h : updLoop ud pk keys l = Except.ok out) :
    updLoop ud pk keys out = Except.ok out := by
  induction l generalizing out with
  | nil =>
    simp only [updLoop, Except.ok.injEq] at h
    subst h
    rfl
  | cons b rest ih =>
    match hb : updOne ud pk keys b with
    | Except.error e => simp [updLoop, hb] at h
    | Except.ok b' =>
      simp only [updLoop, hb] at h
      match hr : updLoop ud pk keys rest with
      | Except.error e => simp [hr] at h
      | Except.ok rs =>
        simp only [hr, Except.ok.injEq] at h
        subst h
        simp [updLoop, hstep b b' hb, ih rs hr]

/-- C3: the unordered field-update is idempotent — whenever one application
succeeds, applying it again with the same other sequence, primary key and
keys to update returns the first result unchanged. -/
theorem C3_update_unordered_idempotent (base other : List Dict) (pk : String)
    (keys : List String) (r : List Dict)
    (h : update_fields_unordered base other pk keys = Except.ok r) :
    update_fields_unordered r other pk keys = Except.ok r := by
  match hd : buildUpdateDict other pk with
  | Except.error e => simp [update_fields_unordered, hd] at h
  | Except.ok d =>
    simp only [update_fields_unordered, hd] at h ⊢
    have hinv : ∀ v u, alGet d v = some u → alGet u pk = some v :=
      buildLoop_key_inv pk other [] d (by intro v u hc; simp [alGet] at hc) hd
    exact updLoop_idem d pk keys (updOne_idem d pk keys hinv) base r h

/-- C3 witness: a concrete successful first application whose result is a
fixed point of the second application. -/
theorem C3_witness :
    update_fields_unordered
      [[("id", Val.vInt 1), ("a", Val.vInt 0), ("b", Val.vInt 1)]]
      [[("id", Val.vInt 1), ("b", Val.vInt 1)]] "id" ["b"]
    = Except.ok [[("id", Val.vInt 1), ("a", Val.vInt 0), ("b", Val.vInt 1)]] :=
  C3_update_unordered_idempotent
    [[("id", Val.vInt 1), ("a", Val.vInt 0)]]
    [[("id", Val.vInt 1), ("b", Val.vInt 1)]] "id" ["b"]
    [[("id", Val.vInt 1), ("a", Val.vInt 0), ("b", Val.vInt 1)]] rfl

/-- C4: if two records of `other` (positions `i < j`) share the primary-key
value `v` and no later record holds `v`, the join-key index maps `v` to the
record at position `j` (last-write-wins), and a matched base record therefore
receives that later record's field values. -/
theorem C4_duplicate_key_last_wins (other : List Dict) (pk : String) (v : Val)
    (i j : Nat) (oi oj : Dict) (hij : i < j)
    (hi : other[i]? = some oi) (hj : other[j]? = some oj)
    (hopk : ∀ u ∈ other, (alGet u pk).isSome)
    (hiv : alGet oi pk = some v) (hjv : alGet oj pk = some v)
    (hlast : ∀ (n : Nat) (on' : Dict), j < n → other[n]? = some on' →
      alGet on' pk ≠ some v) :
    ∃ d, buildUpdateDict other pk = Except.ok d ∧ alGet d v = some oj ∧
      ∀ b keys, alGet b pk = some v → (∀ k ∈ keys, (alGet oj k).isSome) →
        ∃ r, update_fields_unordered [b] other pk keys = Except.ok [r] ∧
          ∀ k ∈ keys, alGet r k = alGet oj k := by
  obtain ⟨d, hd⟩ := buildLoop_ok pk other hopk []
  have hsplit : other = other.take (j + 1) ++ other.drop (j + 1) :=
    (List.take_append_drop _ _).symm
  have happ := buildLoop_append pk (other.take (j + 1)) (other.drop (j + 1)) []
  rw [← hsplit] at happ
  match h1 : buildLoop pk (other.take (j + 1)) [] with
  | Except.error e =>
    rw [h1, hd] at happ
    exact absurd happ (by simp)
  | Except.ok d1 =>
    rw [h1] at happ
    have hdrop : buildLoop pk (other.drop (j + 1)) d1 = Except.ok d :=
      happ.symm.trans hd
    have hskip : alGet d v = alGet d1 v := by
      refine buildLoop_skip pk v _ d1 ?_ d hdrop
      intro x hx
      obtain ⟨n, hn⟩ := List.mem_iff_getElem?.mp hx
      rw [List.getElem?_drop] at hn
      exact hlast (j + 1 + n) x (by omega) hn
    have htake : other.take (j + 1) = other.take j ++ [oj] := by
      rw [List.take_succ, hj]
      rfl
    have happ2 := buildLoop_append pk (other.take j) [oj] []
    rw [← htake] at happ2
    match h2 : buildLoop pk (other.take j) [] with
    | Except.error e =>
      rw [h2] at happ2
      have : buildLoop pk (other.take (j + 1)) [] = Except.error e := happ2
      rw [h1] at this
      exact absurd this (by simp)
    | Except.ok d0 =>
      rw [h2] at happ2
      have hsingle : buildLoop pk (other.take (j + 1)) [] = buildLoop pk [oj] d0 :=
        happ2
      have hset : buildLoop pk [oj] d0 = Except.ok (alSet d0 v oj) := by
        simp [buildLoop, dictGetE, hjv]
      rw [h1, hset] at hsingle
      have hd1 : d1 = alSet d0 v oj := by
        simpa using hsingle
      have hdv : alGet d v = some oj := by
        rw [hskip, hd1, alGet_alSet_self]
      refine ⟨d, hd, hdv, ?_⟩
      intro b keys hb hkeys
      obtain ⟨r, hr, hfields, _⟩ := updateOne_ok oj keys hkeys b
      refine ⟨r, ?_, hfields⟩
      simp [update_fields_unordered, buildUpdateDict, hd, updLoop, updOne,
        dictGetE, hb, hdv, hr]

/-- C4 witness: `other` holds two records with id 1; the index and the
update resolve to the later one (`b = 9`). -/
theorem C4_witness :
    ∃ d, buildUpdateDict
        [[("id", Val.vInt 1), ("b", Val.vInt 5)], [("id", Val.vInt 1), ("b", Val.vInt 9)]]
        "id" = Except.ok d ∧
      alGet d (Val.vInt 1) = some [("id", Val.vInt 1), ("b", Val.vInt 9)] ∧
      ∀ b keys, alGet b "id" = some (Val.vInt 1) →
        (∀ k ∈ keys, (alGet [("id", Val.vInt 1), ("b", Val.vInt 9)] k).isSome) →
        ∃ r, update_fields_unordered [b]
            [[("id", Val.vInt 1), ("b", Val.vInt 5)], [("id", Val.vInt 1), ("b", Val.vInt 9)]]
            "id" keys = Except.ok [r] ∧
          ∀ k ∈ keys, alGet r k = alGet [("id", Val.vInt 1), ("b", Val.vInt 9)] k :=
  C4_duplicate_key_last_wins
    [[("id", Val.vInt 1), ("b", Val.vInt 5)], [("id", Val.vInt 1), ("b", Val.vInt 9)]]
    "id" (Val.vInt 1) 0 1
    [("id", Val.vInt 1), ("b", Val.vInt 5)] [("id", Val.vInt 1), ("b", Val.vInt 9)]
    (by omega) rfl rfl (by decide) rfl rfl
    (by
      intro n on' hn hsome
      obtain ⟨m, rfl⟩ : ∃ m, n = m + 2 := ⟨n - 2, by omega⟩
      simp at hsome)

/-- C7 counterexample: the error raised when a record lacks the primary-key
field does not identify the offending record's position.  Here the offending
record sits at position 0 in the first sequence and at position 1 in the
second, yet building the index yields the *same* error value, a bare
`KeyError("id")` naming only the field. -/
theorem C7_counterexample :
    buildUpdateDict [[("x", Val.vInt 0)], [("id", Val.vInt 1)]] "id" =
      buildUpdateDict [[("id", Val.vInt 1)], [("x", Val.vInt 0)]] "id" ∧
    buildUpdateDict [[("x", Val.vInt 0)], [("id", Val.vInt 1)]] "id" =
      Except.error (Err.keyError "id") := ⟨rfl, rfl⟩

/-- C7 amended: whenever some record of `other` lacks the primary-key field,
building the join-key index fails with `KeyError(primary_key)`, an error
naming the missing field but carrying no record position. -/
theorem C7_missing_key_error (other : List Dict) (pk : String)
    (h : ∃ j ∈ other, alGet j pk = none) :
    buildUpdateDict other pk = Except.error (Err.keyError pk) :=
  buildLoop_missing pk other [] h

/-- C7 witness: a single record without the primary-key field. -/
theorem C7_witness :
    buildUpdateDict [[("x", Val.vInt 0)]] "id" = Except.error (Err.keyError "id") :=
  C7_missing_key_error [[("x", Val.vInt 0)]] "id"
    ⟨[("x", Val.vInt 0)], by simp, rfl⟩

/-! ## Field-merge engine correctness (C8, C10) -/

theorem isIntVal_exists (o : Option Val) (h : isIntVal o = true) :
    ∃ a : Int, o = some (Val.vInt a) := by
  match o with
  | none => simp [isIntVal] at h
  | some (Val.vInt a) => exact ⟨a, rfl⟩
  | some Val.vNull => simp [isIntVal] at h
  | some (Val.vBool b) => simp [isIntVal] at h
  | some (Val.vStr s) => simp [isIntVal] at h

/-- The adjacent-pairwise length check passes when all sequences share one
length (checking consecutive pairs transitively establishes this). -/
theorem pairwiseCheck_ok (l : List (List Dict)) (n : Nat)
    (h : ∀ s ∈ l, s.length = n) : pairwiseCheck l = Except.ok () := by
  induction l with
  | nil => rfl
  | cons a tail ih =>
    match tail with
    | [] => rfl
    | b :: rest =>
      have hab : ¬ a.length ≠ b.length := by
        rw [h a (by simp), h b (by simp)]
        simp
      simp only [pairwiseCheck, if_neg hab]
      exact ih (fun s hs => h s (by simp [hs]))

/-- Gathering the source fields at row `i` succeeds when every zipped
sequence is long enough and every record carries its source field. -/
theorem gatherFields_ok (ps : List (List Dict × String)) (i : Nat)
    (hlen : ∀ p ∈ ps, i < p.1.length)
    (hpres : ∀ p ∈ ps, ∀ r ∈ p.1, (alGet r p.2).isSome) :
    ∃ vs, gatherFields i ps = Except.ok vs := by
  induction ps with
  | nil => exact ⟨[], rfl⟩
  | cons p rest ih =>
    obtain ⟨src, key⟩ := p
    have hi : i < src.length := hlen (src, key) (by simp)
    have hrow : src[i]? = some src[i] := List.getElem?_eq_getElem hi
    obtain ⟨v, hv⟩ := Option.isSome_iff_exists.mp
      (hpres (src, key) (by simp) src[i] (List.getElem_mem hi))
    obtain ⟨vs, hvs⟩ := ih (fun p hp => hlen p (by simp [hp]))
      (fun p hp => hpres p (by simp [hp]))
    exact ⟨v :: vs, by simp [gatherFields, listGetE, hrow, dictGetE, hv, hvs]⟩

/-- Pointwise success of the merge loop over a list of row indices. -/
theorem mergeLoop_pointwise (sources : List (List Dict)) (srcKeys : List String)
    (mergeFn : List Val → Val) (resultKey : Option String)
    (P : Nat → Dict → Prop) (is : List Nat)
    (h : ∀ i ∈ is, ∃ d, mergeBody sources srcKeys mergeFn resultKey i =
      Except.ok d ∧ P i d) :
    ∃ out, mergeLoop sources srcKeys mergeFn resultKey is = Except.ok out ∧
      out.length = is.length ∧
      ∀ (m i : Nat) (d : Dict), is[m]? = some i → out[m]? = some d → P i d := by
  induction is with
  | nil =>
    refine ⟨[], rfl, rfl, ?_⟩
    intro m i d h1 _
    simp at h1
  | cons i rest ih =>
    obtain ⟨d, hd, hP⟩ := h i (by simp)
    obtain ⟨out, hout, hlen, hpt⟩ := ih (fun x hx => h x (by simp [hx]))
    refine ⟨d :: out, by simp [mergeLoop, hd, hout], by simp [hlen], ?_⟩
    intro m i' d' h1 h2
    match m with
    | 0 =>
      rw [List.getElem?_cons_zero] at h1 h2
      obtain rfl := Option.some_inj.mp h1
      obtain rfl := Option.some_inj.mp h2
      exact hP
    | Nat.succ m' =>
      rw [List.getElem?_cons_succ] at h1 h2
      exact hpt m' i' d' h1 h2

/-- Everything a record returned by `getElem?` satisfies: it is a member and
the index is in range. -/
theorem getElem?_facts {α : Type} (l : List α) (i : Nat) (a : α)
    (h : l[i]? = some a) : a ∈ l ∧ i < l.length := by
  obtain ⟨hlt, rfl⟩ := List.getElem?_eq_some.mp h
  exact ⟨List.getElem_mem hlt, hlt⟩

/-- C8: merging three equal-length sequences with Python's `sum` over
present numeric source fields `f0, f1, f2` and a result key different from
`f0` succeeds, preserves the length, stores the sum of the three source
fields at each index under the result key, and removes `f0` from the
resulting record. -/
theorem C8_merge_sum (s0 s1 s2 : List Dict) (f0 f1 f2 rk : String)
    (h1 : s1.length = s0.length) (h2 : s2.length = s0.length)
    (hrk0 : rk ≠ f0) (hrkne : rk ≠ "")
    (hnum0 : ∀ r ∈ s0, isIntVal (alGet r f0))
    (hnum1 : ∀ r ∈ s1, isIntVal (alGet r f1))
    (hnum2 : ∀ r ∈ s2, isIntVal (alGet r f2)) :
    ∃ out, merge_fields [s0, s1, s2] [f0, f1, f2] sumVals (some rk) =
        Except.ok out ∧
      out.length = s0.length ∧
      ∀ (i : Nat) (r0 r1 r2 oi : Dict), s0[i]? = some r0 → s1[i]? = some r1 →
        s2[i]? = some r2 → out[i]? = some oi →
        ∀ a b c : Int, alGet r0 f0 = some (Val.vInt a) →
          alGet r1 f1 = some (Val.vInt b) → alGet r2 f2 = some (Val.vInt c) →
          alGet oi rk = some (Val.vInt (a + b + c)) ∧ alGet oi f0 = none := by
  have hne : f0 ≠ rk := fun he => hrk0 he.symm
  have hstep : ∀ i ∈ List.range s0.length, ∃ d,
      mergeBody [s0, s1, s2] [f0, f1, f2] sumVals (some rk) i = Except.ok d ∧
      (∀ (r0 r1 r2 : Dict), s0[i]? = some r0 → s1[i]? = some r1 →
        s2[i]? = some r2 →
        ∀ a b c : Int, alGet r0 f0 = some (Val.vInt a) →
          alGet r1 f1 = some (Val.vInt b) → alGet r2 f2 = some (Val.vInt c) →
          alGet d rk = some (Val.vInt (a + b + c)) ∧ alGet d f0 = none) := by
    intro i hi
    have hin : i < s0.length := List.mem_range.mp hi
    obtain ⟨r0, hr0⟩ : ∃ r, s0[i]? = some r := ⟨_, List.getElem?_eq_getElem hin⟩
    obtain ⟨r1, hr1⟩ : ∃ r, s1[i]? = some r :=
      ⟨_, List.getElem?_eq_getElem (show i < s1.length by omega)⟩
    obtain ⟨r2, hr2⟩ : ∃ r, s2[i]? = some r :=
      ⟨_, List.getElem?_eq_getElem (show i < s2.length by omega)⟩
    obtain ⟨a, ha⟩ := isIntVal_exists _ (hnum0 r0 (getElem?_facts s0 i r0 hr0).1)
    obtain ⟨b, hb⟩ := isIntVal_exists _ (hnum1 r1 (getElem?_facts s1 i r1 hr1).1)
    obtain ⟨c, hc⟩ := isIntVal_exists _ (hnum2 r2 (getElem?_facts s2 i r2 hr2).1)
    have hg : gatherFields i [(s0, f0), (s1, f1), (s2, f2)] =
        Except.ok [Val.vInt a, Val.vInt b, Val.vInt c] := by
      simp [gatherFields, listGetE, hr0, hr1, hr2, dictGetE, ha, hb, hc]
    have hsum : sumVals [Val.vInt a, Val.vInt b, Val.vInt c] = Val.vInt (a + b + c) := by
      simp [sumVals, asInt]
    have hpres : alGet (alSet r0 rk (Val.vInt (a + b + c))) f0 = some (Val.vInt a) := by
      rw [alGet_alSet_ne _ _ _ _ hne, ha]
    refine ⟨alDel (alSet r0 rk (Val.vInt (a + b + c))) f0, ?_, ?_⟩
    · simp [mergeBody, hg, listGetE, hr0, hsum, hrkne, hne, pyDel, hpres]
    · intro r0' r1' r2' hp0 hp1 hp2 a' b' c' ha' hb' hc'
      rw [hr0] at hp0
      obtain rfl := Option.some_inj.mp hp0
      rw [hr1] at hp1
      obtain rfl := Option.some_inj.mp hp1
      rw [hr2] at hp2
      obtain rfl := Option.some_inj.mp hp2
      rw [ha] at ha'
      obtain rfl : a = a' := by
        have := Option.some_inj.mp ha'
        exact Val.vInt.inj this
      rw [hb] at hb'
      obtain rfl : b = b' := by
        have := Option.some_inj.mp hb'
        exact Val.vInt.inj this
      rw [hc] at hc'
      obtain rfl : c = c' := by
        have := Option.some_inj.mp hc'
        exact Val.vInt.inj this
      constructor
      · rw [alGet_alDel_ne _ _ _ hrk0, alGet_alSet_self]
      · exact alGet_alDel_self _ _
  obtain ⟨out, hout, hlen, hpt⟩ := mergeLoop_pointwise [s0, s1, s2] [f0, f1, f2]
    sumVals (some rk) _ (List.range s0.length) hstep
  have hpc : pairwiseCheck [s0, s1, s2] = Except.ok () := by
    refine pairwiseCheck_ok _ s0.length ?_
    intro s hs
    simp only [List.mem_cons, List.not_mem_nil, or_false] at hs
    rcases hs with rfl | rfl | rfl
    · rfl
    · exact h1
    · exact h2
  refine ⟨out, ?_, by rw [hlen, List.length_range], ?_⟩
  · simp [merge_fields, hpc, listGetE, hout]
  · intro i r0 r1 r2 oi hp0 hp1 hp2 hpo
    have hio : i < out.length := (getElem?_facts out i oi hpo).2
    have hin : i < s0.length := by rwa [hlen, List.length_range] at hio
    have hidx : (List.range s0.length)[i]? = some i := by
      rw [List.getElem?_eq_getElem (by simpa using hin)]
      simp [List.getElem_range]
    exact hpt i i oi hidx hpo r0 r1 r2 hp0 hp1 hp2

/-- C8 witness: three singleton sequences with numeric fields 1, 2, 3 merge
under result key `s` to 6, with `f0` removed. -/
theorem C8_witness :
    ∃ out, merge_fields
        [[[("f0", Val.vInt 1)]], [[("f1", Val.vInt 2)]], [[("f2", Val.vInt 3)]]]
        ["f0", "f1", "f2"] sumVals (some "s") = Except.ok out ∧
      out.length = 1 ∧
      ∀ (i : Nat) (r0 r1 r2 oi : Dict),
        [[("f0", Val.vInt 1)]][i]? = some r0 →
        [[("f1", Val.vInt 2)]][i]? = some r1 →
        [[("f2", Val.vInt 3)]][i]? = some r2 →
        out[i]? = some oi →
        ∀ a b c : Int, alGet r0 "f0" = some (Val.vInt a) →
          alGet r1 "f1" = some (Val.vInt b) → alGet r2 "f2" = some (Val.vInt c) →
          alGet oi "s" = some (Val.vInt (a + b + c)) ∧ alGet oi "f0" = none :=
  C8_merge_sum [[("f0", Val.vInt 1)]] [[("f1", Val.vInt 2)]] [[("f2", Val.vInt 3)]]
    "f0" "f1" "f2" "s" rfl rfl (by decide) (by decide)
    (by decide) (by decide) (by decide)

/-- C10: when the result key is omitted (`None`, or the falsy empty string),
the merged value is stored under the first source key and no field of the
base record is removed: the output record is exactly the base record with
the merged value written at the first source key. -/
theorem C10_merge_default_key (s0 : List Dict) (rest : List (List Dict))
    (sk0 : String) (skrest : List String) (mergeFn : List Val → Val)
    (resultKey : Option String)
    (hfalsy : resultKey = none ∨ resultKey = some "")
    (hlen : ∀ s ∈ rest, s.length = s0.length)
    (hpres : ∀ p ∈ (s0 :: rest).zip (sk0 :: skrest), ∀ r ∈ p.1,
      (alGet r p.2).isSome) :
    ∃ out, merge_fields (s0 :: rest) (sk0 :: skrest) mergeFn resultKey =
        Except.ok out ∧
      out.length = s0.length ∧
      ∀ (i : Nat) (r0 oi : Dict), s0[i]? = some r0 → out[i]? = some oi →
        ∃ fields, gatherFields i ((s0 :: rest).zip (sk0 :: skrest)) =
            Except.ok fields ∧
          oi = alSet r0 sk0 (mergeFn fields) ∧
          alGet oi sk0 = some (mergeFn fields) ∧
          ∀ k, k ≠ sk0 → alGet oi k = alGet r0 k := by
  have hstep : ∀ i ∈ List.range s0.length, ∃ d,
      mergeBody (s0 :: rest) (sk0 :: skrest) mergeFn resultKey i = Except.ok d ∧
      (∀ r0 : Dict, s0[i]? = some r0 →
        ∃ fields, gatherFields i ((s0 :: rest).zip (sk0 :: skrest)) =
            Except.ok fields ∧
          d = alSet r0 sk0 (mergeFn fields) ∧
          alGet d sk0 = some (mergeFn fields) ∧
          ∀ k, k ≠ sk0 → alGet d k = alGet r0 k) := by
    intro i hi
    have hin : i < s0.length := List.mem_range.mp hi
    obtain ⟨r0, hr0⟩ : ∃ r, s0[i]? = some r := ⟨_, List.getElem?_eq_getElem hin⟩
    have hl : ∀ p ∈ (s0 :: rest).zip (sk0 :: skrest), i < p.1.length := by
      intro p hp
      have hm := (List.of_mem_zip hp).1
      rcases List.mem_cons.mp hm with he | he
      · rw [he]
        exact hin
      · rw [hlen p.1 he]
        exact hin
    obtain ⟨fields, hf⟩ := gatherFields_ok _ i hl hpres
    refine ⟨alSet r0 sk0 (mergeFn fields), ?_, ?_⟩
    · have hf' := hf
      rw [List.zip_cons_cons] at hf'
      rcases hfalsy with rfl | rfl <;>
        simp [mergeBody, hf', listGetE, hr0]
    · intro r0' hp0
      rw [hr0] at hp0
      obtain rfl := Option.some_inj.mp hp0
      exact ⟨fields, hf, rfl, by rw [alGet_alSet_self],
        fun k hk => alGet_alSet_ne _ _ _ _ hk⟩
  obtain ⟨out, hout, hlen', hpt⟩ := mergeLoop_pointwise (s0 :: rest)
    (sk0 :: skrest) mergeFn resultKey _ (List.range s0.length) hstep
  have hpc : pairwiseCheck (s0 :: rest) = Except.ok () := by
    refine pairwiseCheck_ok _ s0.length ?_
    intro s hs
    rcases List.mem_cons.mp hs with rfl | hs'
    · rfl
    · exact hlen s hs'
  refine ⟨out, ?_, by rw [hlen', List.length_range], ?_⟩
  · simp [merge_fields, hpc, listGetE, hout]
  · intro i r0 oi hp0 hpo
    have hio : i < out.length := (getElem?_facts out i oi hpo).2
    have hin : i < s0.length := by rwa [hlen', List.length_range] at hio
    have hidx : (List.range s0.length)[i]? = some i := by
      rw [List.getElem?_eq_getElem (by simpa using hin)]
      simp [List.getElem_range]
    exact hpt i i oi hidx hpo r0 hp0

/-- C10 witness: two aligned sequences sharing source key `v`, result key
omitted — the sum lands under `v` and the extra field `w` survives. -/
theorem C10_witness :
    ∃ out, merge_fields
        [[[("v", Val.vInt 1), ("w", Val.vInt 7)]], [[("v", Val.vInt 2)]]]
        ["v", "v"] sumVals none = Except.ok out ∧
      out.length = 1 ∧
      ∀ (i : Nat) (r0 oi : Dict),
        [[("v", Val.vInt 1), ("w", Val.vInt 7)]][i]? = some r0 →
        out[i]? = some oi →
        ∃ fields, gatherFields i
            (List.zip [[[("v", Val.vInt 1), ("w", Val.vInt 7)]], [[("v", Val.vInt 2)]]]
              ["v", "v"]) = Except.ok fields ∧
          oi = alSet r0 "v" (sumVals fields) ∧
          alGet oi "v" = some (sumVals fields) ∧
          ∀ k, k ≠ "v" → alGet oi k = alGet r0 k :=
  C10_merge_default_key [[("v", Val.vInt 1), ("w", Val.vInt 7)]] [[[("v", Val.vInt 2)]]]
    "v" ["v"] sumVals none (Or.inl rfl) (by decide) (by decide)

/-! ## Multi-field transform correctness (C9) -/

/-- The fallible parameter gathering agrees with its pure description on
success. -/
theorem readParamsLoop_eq_some (line : Dict) (name : String)
    (m : List (String × (String → String))) (ps : List (String × Val))
    (h : readParamsLoop line name m = Except.ok ps) :
    readParams line name m = some ps := by
  induction m generalizing ps with
  | nil =>
    simp only [readParamsLoop, Except.ok.injEq] at h
    subst h
    rfl
  | cons pf rest ih =>
    obtain ⟨pname, pkfn⟩ := pf
    match hv : alGet line (pkfn name) with
    | none => simp [readParamsLoop, dictGetE, hv] at h
    | some v =>
      simp only [readParamsLoop, dictGetE, hv] at h
      match hr : readParamsLoop line name rest with
      | Except.error e => simp [hr] at h
      | Except.ok ps' =>
        simp only [hr, Except.ok.injEq] at h
        subst h
        simp [readParams, hv, ih ps' hr]

/-- Conversely, a pure read determines the fallible loop's success. -/
theorem readParamsLoop_of_some (line : Dict) (name : String)
    (m : List (String × (String → String))) (ps : List (String × Val))
    (h : readParams line name m = some ps) :
    readParamsLoop line name m = Except.ok ps := by
  induction m generalizing ps with
  | nil =>
    simp only [readParams, Option.some.injEq] at h
    subst h
    rfl
  | cons pf rest ih =>
    obtain ⟨pname, pkfn⟩ := pf
    match hv : alGet line (pkfn name) with
    | none => simp [readParams, hv] at h
    | some v =>
      simp only [readParams, hv] at h
      match hr : readParams line name rest with
      | none => simp [hr] at h
      | some ps' =>
        simp only [hr, Option.some.injEq] at h
        subst h
        simp [readParamsLoop, dictGetE, hv, ih ps' hr]

/-- A successful parameter gathering implies every source field is present. -/
theorem readParamsLoop_presence (line : Dict) (name : String)
    (m : List (String × (String → String))) (ps : List (String × Val))
    (h : readParamsLoop line name m = Except.ok ps) :
    ∀ pf ∈ m, (alGet line (pf.2 name)).isSome := by
  induction m generalizing ps with
  | nil => simp
  | cons pf rest ih =>
    obtain ⟨pname, pkfn⟩ := pf
    match hv : alGet line (pkfn name) with
    | none => simp [readParamsLoop, dictGetE, hv] at h
    | some v =>
      simp only [readParamsLoop, dictGetE, hv] at h
      match hr : readParamsLoop line name rest with
      | Except.error e => simp [hr] at h
      | Except.ok ps' =>
        intro pf' hpf'
        rcases List.mem_cons.mp hpf' with he | he
        · subst he
          simp [hv]
        · exact ih ps' hr pf' he


/-- Presence of every source field makes the pure parameter read succeed. -/
theorem readParams_of_presence (line : Dict) (name : String)
    (m : List (String × (String → String)))
    (h : ∀ pf ∈ m, (alGet line (pf.2 name)).isSome) :
    ∃ ps, readParams line name m = some ps := by
  induction m with
  | nil => exact ⟨[], rfl⟩
  | cons pf rest ih =>
    obtain ⟨pname, pkfn⟩ := pf
    obtain ⟨v, hv⟩ := Option.isSome_iff_exists.mp (h (pname, pkfn) (by simp))
    obtain ⟨ps, hps⟩ := ih (fun pf' hpf' => h pf' (by simp [hpf']))
    exact ⟨(pname, v) :: ps, by simp [readParams, hv, hps]⟩

/-- Writing a field that is not a source field of `name` does not change the
parameters read for `name`. -/
theorem readParams_alSet_ne (line : Dict) (name dk : String) (v : Val)
    (m : List (String × (String → String)))
    (h : ∀ pf ∈ m, dk ≠ pf.2 name) :
    readParams (alSet line dk v) name m = readParams line name m := by
  induction m with
  | nil => rfl
  | cons pf rest ih =>
    obtain ⟨pname, pkfn⟩ := pf
    have hne : pkfn name ≠ dk := fun he => h (pname, pkfn) (by simp) he.symm
    rw [readParams, readParams, alGet_alSet_ne _ _ _ _ hne,
      ih (fun pf' hpf' => h pf' (by simp [hpf']))]

/-- Success of the per-record model-name loop under key separation: every
destination field receives the transform of the parameters read from the
*original* record, and all other fields are unchanged. -/
theorem transformNames_ok (tf : List (String × Val) → Val)
    (pkfm : List (String × (String → String))) (dstKeyFn : String → String)
    (names : List String) (line : Dict)
    (hA : ∀ name ∈ names, ∀ pf ∈ pkfm, (alGet line (pf.2 name)).isSome)
    (hB : ∀ n1 ∈ names, ∀ n2 ∈ names, ∀ pf ∈ pkfm, dstKeyFn n1 ≠ pf.2 n2)
    (hC : ∀ n1 ∈ names, ∀ n2 ∈ names, dstKeyFn n1 = dstKeyFn n2 → n1 = n2) :
    ∃ res, transformNames tf pkfm dstKeyFn names line = Except.ok res ∧
      (∀ name ∈ names, ∃ ps, readParams line name pkfm = some ps ∧
        alGet res (dstKeyFn name) = some (tf ps)) ∧
      (∀ k, (∀ name ∈ names, k ≠ dstKeyFn name) → alGet res k = alGet line k) := by
  induction names generalizing line with
  | nil => exact ⟨line, rfl, by simp, fun _ _ => rfl⟩
  | cons name rest ih =>
    obtain ⟨ps, hps⟩ := readParams_of_presence line name pkfm
      (fun pf hpf => hA name (by simp) pf hpf)
    have hloop : readParamsLoop line name pkfm = Except.ok ps :=
      readParamsLoop_of_some line name pkfm ps hps
    have hA' : ∀ n' ∈ rest, ∀ pf ∈ pkfm,
        (alGet (alSet line (dstKeyFn name) (tf ps)) (pf.2 n')).isSome := by
      intro n' hn' pf hpf
      rw [alGet_alSet_ne _ _ _ _
        (fun he => hB name (by simp) n' (by simp [hn']) pf hpf he.symm)]
      exact hA n' (by simp [hn']) pf hpf
    obtain ⟨res, hres, hP1, hP2⟩ := ih (alSet line (dstKeyFn name) (tf ps)) hA'
      (fun n1 h1 n2 h2 pf hpf => hB n1 (by simp [h1]) n2 (by simp [h2]) pf hpf)
      (fun n1 h1 n2 h2 he => hC n1 (by simp [h1]) n2 (by simp [h2]) he)
    refine ⟨res, by simp [transformNames, hloop, hres], ?_, ?_⟩
    · intro n' hn'
      have hcase : ∀ n'' ∈ rest, n'' = n' →
          ∃ ps', readParams line n' pkfm = some ps' ∧
            alGet res (dstKeyFn n') = some (tf ps') := by
        intro n'' hn'' he
        subst he
        obtain ⟨ps', hps', hres'⟩ := hP1 n'' hn''
        rw [readParams_alSet_ne line n'' (dstKeyFn name) (tf ps) pkfm
          (fun pf hpf => hB name (by simp) n'' (by simp [hn'']) pf hpf)] at hps'
        exact ⟨ps', hps', hres'⟩
      rcases List.mem_cons.mp hn' with he | he
      · subst he
        by_cases hmem : n' ∈ rest
        · exact hcase n' hmem rfl
        · refine ⟨ps, hps, ?_⟩
          rw [hP2 (dstKeyFn n') ?_, alGet_alSet_self]
          intro n'' hn'' hd
          exact hmem ((hC n' (by simp) n'' (by simp [hn'']) hd) ▸ hn'')
      · exact hcase n' he rfl
    · intro k hk
      rw [hP2 k (fun n' hn' => hk n' (by simp [hn'])),
        alGet_alSet_ne _ _ _ _ (hk name (by simp))]

/-- Conversely, success of the per-record loop forces every source field to
be present in the original record (under key separation: destination writes
never create a source field). -/
theorem transformNames_presence (tf : List (String × Val) → Val)
    (pkfm : List (String × (String → String))) (dstKeyFn : String → String)
    (names : List String) (line res : Dict)
    (h : transformNames tf pkfm dstKeyFn names line = Except.ok res)
    (hB : ∀ n1 ∈ names, ∀ n2 ∈ names, ∀ pf ∈ pkfm, dstKeyFn n1 ≠ pf.2 n2) :
    ∀ name ∈ names, ∀ pf ∈ pkfm, (alGet line (pf.2 name)).isSome := by
  induction names generalizing line with
  | nil => simp
  | cons name rest ih =>
    match hloop : readParamsLoop line name pkfm with
    | Except.error e => simp [transformNames, hloop] at h
    | Except.ok ps =>
      simp only [transformNames, hloop] at h
      intro n' hn' pf hpf
      rcases List.mem_cons.mp hn' with he | he
      · subst he
        exact readParamsLoop_presence line n' pkfm ps hloop pf hpf
      · have := ih (alSet line (dstKeyFn name) (tf ps)) h
          (fun n1 h1 n2 h2 pf' hpf' => hB n1 (by simp [h1]) n2 (by simp [h2]) pf' hpf')
          n' he pf hpf
        rwa [alGet_alSet_ne _ _ _ _
          (fun hx => hB name (by simp) n' (by simp [he]) pf hpf hx.symm)] at this

/-- Any error of the parameter gathering is a `KeyError`. -/
theorem readParamsLoop_err_shape (line : Dict) (name : String)
    (m : List (String × (String → String))) (e : Err)
    (h : readParamsLoop line name m = Except.error e) : ∃ k, e = Err.keyError k := by
  induction m with
  | nil => simp [readParamsLoop] at h
  | cons pf rest ih =>
    obtain ⟨pname, pkfn⟩ := pf
    match hv : alGet line (pkfn name) with
    | none =>
      simp only [readParamsLoop, dictGetE, hv, Except.error.injEq] at h
      exact ⟨pkfn name, h.symm⟩
    | some v =>
      simp only [readParamsLoop, dictGetE, hv] at h
      match hr : readParamsLoop line name rest with
      | Except.error e' =>
        simp only [hr, Except.error.injEq] at h
        subst h
        exact ih hr
      | Except.ok ps => simp [hr] at h

/-- Any error of the per-record model-name loop is a `KeyError`. -/
theorem transformNames_err_shape (tf : List (String × Val) → Val)
    (pkfm : List (String × (String → String))) (dstKeyFn : String → String)
    (names : List String) (line : Dict) (e : Err)
    (h : transformNames tf pkfm dstKeyFn names line = Except.error e) :
    ∃ k, e = Err.keyError k := by
  induction names generalizing line with
  | nil => simp [transformNames] at h
  | cons name rest ih =>
    match hloop : readParamsLoop line name pkfm with
    | Except.error e' =>
      simp only [transformNames, hloop, Except.error.injEq] at h
      exact h ▸ readParamsLoop_err_shape line name pkfm e' hloop
    | Except.ok ps =>
      simp only [transformNames, hloop] at h
      exact ih _ h

/-- A successful line loop processed every line successfully. -/
theorem linesLoop_each (modelNames : List String) (tf : List (String × Val) → Val)
    (pkfm : List (String × (String → String))) (dstKeyFn : String → String)
    (lines out : List Dict)
    (h : linesLoop modelNames tf pkfm dstKeyFn lines = Except.ok out) :
    ∀ l ∈ lines, ∃ res, transformNames tf pkfm dstKeyFn modelNames l =
      Except.ok res := by
  induction lines generalizing out with
  | nil => simp
  | cons l0 rest ih =>
    match ht : transformNames tf pkfm dstKeyFn modelNames l0 with
    | Except.error e => simp [linesLoop, ht] at h
    | Except.ok res =>
      simp only [linesLoop, ht] at h
      match hr : linesLoop modelNames tf pkfm dstKeyFn rest with
      | Except.error e => simp [hr] at h
      | Except.ok outs =>
        intro l hl
        rcases List.mem_cons.mp hl with he | he
        · exact he ▸ ⟨res, ht⟩
        · exact ih outs hr l he

/-- Any error of the line loop is a `KeyError`. -/
theorem linesLoop_err_shape (modelNames : List String)
    (tf : List (String × Val) → Val)
    (pkfm : List (String × (String → String))) (dstKeyFn : String → String)
    (lines : List Dict) (e : Err)
    (h : linesLoop modelNames tf pkfm dstKeyFn lines = Except.error e) :
    ∃ k, e = Err.keyError k := by
  induction lines with
  | nil => simp [linesLoop] at h
  | cons l0 rest ih =>
    match ht : transformNames tf pkfm dstKeyFn modelNames l0 with
    | Except.error e' =>
      simp only [linesLoop, ht, Except.error.injEq] at h
      exact h ▸ transformNames_err_shape tf pkfm dstKeyFn modelNames l0 e' ht
    | Except.ok res =>
      simp only [linesLoop, ht] at h
      match hr : linesLoop modelNames tf pkfm dstKeyFn rest with
      | Except.error e' =>
        simp only [hr, Except.error.injEq] at h
        subst h
        exact ih hr
      | Except.ok outs => simp [hr] at h

/-- Pointwise success of the line loop. -/
theorem linesLoop_pointwise (modelNames : List String)
    (tf : List (String × Val) → Val)
    (pkfm : List (String × (String → String))) (dstKeyFn : String → String)
    (P : Dict → Dict → Prop) (l : List Dict)
    (h : ∀ line ∈ l, ∃ res, transformNames tf pkfm dstKeyFn modelNames line =
      Except.ok res ∧ P line res) :
    ∃ out, linesLoop modelNames tf pkfm dstKeyFn l = Except.ok out ∧
      out.length = l.length ∧
      ∀ (i : Nat) (li oi : Dict), l[i]? = some li → out[i]? = some oi → P li oi := by
  induction l with
  | nil =>
    refine ⟨[], rfl, rfl, ?_⟩
    intro i li oi h1 _
    simp at h1
  | cons line rest ih =>
    obtain ⟨res, hres, hP⟩ := h line (by simp)
    obtain ⟨out, hout, hlen, hpt⟩ := ih (fun x hx => h x (by simp [hx]))
    refine ⟨res :: out, by simp [linesLoop, hres, hout], by simp [hlen], ?_⟩
    intro i li oi h1 h2
    match i with
    | 0 =>
      rw [List.getElem?_cons_zero] at h1 h2
      obtain rfl := Option.some_inj.mp h1
      obtain rfl := Option.some_inj.mp h2
      exact hP
    | Nat.succ n =>
      rw [List.getElem?_cons_succ] at h1 h2
      exact hpt n li oi h1 h2

/-- C9 counterexample: without separating destination keys from source keys
the claimed per-name equation fails.  On `lines = [{"x":0}]`,
`modelNames = ["m1","m2"]`, parameter `p` always read from field `x`,
`dstKeyFn` mapping `m1 ↦ x` and `m2 ↦ y`, and the transform `p + 1`, the
engine returns `{"x":1, "y":2}` — the write for `m1` lands on the source
field `x` and is then read by `m2`.  The claimed equation
`record[dstKeyFn(name)] = transformFn(record[paramKeyFns[p](name)])` then
fails at `m2` when `record` is the input record (expected 1, actual 2) and
fails at `m1` when `record` is the output record (expected 2, actual 1). -/
theorem C9_counterexample :
    multi_field_transform [[("x", Val.vInt 0)]] ["m1", "m2"] tfInc pkfmX dstXY =
      Except.ok [[("x", Val.vInt 1), ("y", Val.vInt 2)]] ∧
    Option.map tfInc (readParams [("x", Val.vInt 0)] "m2" pkfmX) ≠
      alGet [("x", Val.vInt 1), ("y", Val.vInt 2)] (dstXY "m2") ∧
    Option.map tfInc
        (readParams [("x", Val.vInt 1), ("y", Val.vInt 2)] "m1" pkfmX) ≠
      alGet [("x", Val.vInt 1), ("y", Val.vInt 2)] (dstXY "m1") :=
  ⟨rfl, by decide, by decide⟩

/-- C9 amended: provided the destination keys are injective over the model
names and never coincide with a parameter source key, the multi-field
transform succeeds when every required source field is present, writing, for
every record and model name, the transform of the parameters read from the
original record under `dstKeyFn(name)` and leaving all other fields
unchanged; and it fails with a Missing-Field (`KeyError`) error when some
required source field is absent. -/
theorem C9_multi_field_transform (lines : List Dict) (modelNames : List String)
    (tf : List (String × Val) → Val)
    (pkfm : List (String × (String → String))) (dstKeyFn : String → String)
    (hdisj : ∀ n1 ∈ modelNames, ∀ n2 ∈ modelNames, ∀ pf ∈ pkfm,
      dstKeyFn n1 ≠ pf.2 n2)
    (hinj : ∀ n1 ∈ modelNames, ∀ n2 ∈ modelNames,
      dstKeyFn n1 = dstKeyFn n2 → n1 = n2) :
    ((∀ l ∈ lines, ∀ name ∈ modelNames, ∀ pf ∈ pkfm,
        (alGet l (pf.2 name)).isSome) →
      ∃ out, multi_field_transform lines modelNames tf pkfm dstKeyFn =
          Except.ok out ∧
        out.length = lines.length ∧
        ∀ (i : Nat) (l0 oi : Dict), lines[i]? = some l0 → out[i]? = some oi →
          (∀ name ∈ modelNames, ∃ ps, readParams l0 name pkfm = some ps ∧
            alGet oi (dstKeyFn name) = some (tf ps)) ∧
          (∀ k, (∀ name ∈ modelNames, k ≠ dstKeyFn name) →
            alGet oi k = alGet l0 k)) ∧
    ((∃ l ∈ lines, ∃ name ∈ modelNames, ∃ pf ∈ pkfm,
        alGet l (pf.2 name) = none) →
      ∃ k, multi_field_transform lines modelNames tf pkfm dstKeyFn =
        Except.error (Err.keyError k)) := by
  constructor
  · intro hpres
    have hstep : ∀ line ∈ lines, ∃ res,
        transformNames tf pkfm dstKeyFn modelNames line = Except.ok res ∧
        ((∀ name ∈ modelNames, ∃ ps, readParams line name pkfm = some ps ∧
          alGet res (dstKeyFn name) = some (tf ps)) ∧
         (∀ k, (∀ name ∈ modelNames, k ≠ dstKeyFn name) →
          alGet res k = alGet line k)) := by
      intro line hline
      obtain ⟨res, h1, h2, h3⟩ := transformNames_ok tf pkfm dstKeyFn modelNames
        line (fun name hn pf hpf => hpres line hline name hn pf hpf) hdisj hinj
      exact ⟨res, h1, h2, h3⟩
    obtain ⟨out, hout, hlen, hpt⟩ := linesLoop_pointwise modelNames tf pkfm
      dstKeyFn _ lines hstep
    exact ⟨out, hout, hlen, fun i l0 oi h1 h2 => hpt i l0 oi h1 h2⟩
  · rintro ⟨l, hl, name, hn, pf, hpf, hnone⟩
    match hres : multi_field_transform lines modelNames tf pkfm dstKeyFn with
    | Except.ok out =>
      obtain ⟨res, hres'⟩ :=
        linesLoop_each modelNames tf pkfm dstKeyFn lines out hres l hl
      have hs := transformNames_presence tf pkfm dstKeyFn modelNames l res
        hres' hdisj name hn pf hpf
      rw [hnone] at hs
      simp at hs
    | Except.error e =>
      obtain ⟨k, rfl⟩ :=
        linesLoop_err_shape modelNames tf pkfm dstKeyFn lines e hres
      exact ⟨k, rfl⟩

/-- C9 witness: with separated keys (`u` source, `m_out` destination) the
amended theorem applies; the success half on a present field, the failure
half on a record lacking the source field. -/
theorem C9_witness :
    (∃ out, multi_field_transform [[("u", Val.vInt 5)]] ["m"] tfInc pkfmU dstOut =
        Except.ok out ∧
      out.length = 1 ∧
      ∀ (i : Nat) (l0 oi : Dict), [[("u", Val.vInt 5)]][i]? = some l0 →
        out[i]? = some oi →
        (∀ name ∈ ["m"], ∃ ps, readParams l0 name pkfmU = some ps ∧
          alGet oi (dstOut name) = some (tfInc ps)) ∧
        (∀ k, (∀ name ∈ ["m"], k ≠ dstOut name) → alGet oi k = alGet l0 k)) ∧
    (∃ k, multi_field_transform [[("y", Val.vInt 5)]] ["m"] tfInc pkfmU dstOut =
      Except.error (Err.keyError k)) := by
  constructor
  · exact (C9_multi_field_transform [[("u", Val.vInt 5)]] ["m"] tfInc pkfmU
      dstOut (by decide) (by decide)).1 (by decide)
  · exact (C9_multi_field_transform [[("y", Val.vInt 5)]] ["m"] tfInc pkfmU
      dstOut (by decide) (by decide)).2
      ⟨[("y", Val.vInt 5)], by simp, "m", by simp,
        ("p", fun _ => "u"), by simp [pkfmU], rfl⟩
